import Mathlib

/-!
Verification of the pomegranate secure-channel core: message framing,
trust-on-first-use server identity validation, the handshake protocol,
the per-direction AEAD message channel with its big-endian nonce counter,
the reconnection backoff timer, and the client connection loop.

Byte sequences are modelled as `List Nat` with every element below 256.
The AES-GCM-SIV and RSA primitives are modelled symbolically (perfect
cryptography): a ciphertext records the key, nonce and plaintext, and
decryption succeeds exactly when key and nonce match.
-/

namespace Pomegranate

/-- Value of a byte list read little-endian (head is the least significant
byte). Big-endian quantities are read through `List.reverse`. -/
def leNat : List Nat → Nat
  | [] => 0
  | b :: rest => b + 256 * leNat rest

/-- Value of a byte list read big-endian, as `u64::from_be_bytes` and the
nonce counter interpret their bytes. -/
def beNat (l : List Nat) : Nat := leNat l.reverse

/-- Every element of the list is a byte value. -/
def bytesOk (l : List Nat) : Prop := ∀ b ∈ l, b < 256

instance (l : List Nat) : Decidable (bytesOk l) := by
  unfold bytesOk; infer_instance

/-- Little-endian increment with carry, mirroring the loop of
`inc_multibyte` (crypto.rs): the loop walks from the rightmost byte,
zeroing 0xFF bytes, and stops after the first non-0xFF byte. -/
def incLE : List Nat → List Nat
  | [] => []
  | b :: rest => if b = 255 then 0 :: incLE rest else (b + 1) :: rest

/-- `inc_multibyte` from crypto.rs: interprets the bytes as one big-endian
unsigned integer and adds one, wrapping to zero on overflow. -/
def inc_multibyte (num : List Nat) : List Nat := (incLE num.reverse).reverse

/-! ## Embedded data model -/

/-- Kinds of `io::Error` the embedded code constructs or observes. -/
inductive IOErr
  | unexpectedEof
  | invalidData (msg : String)
  | other (msg : String)
deriving DecidableEq

/-- `AESGCMNonceCounter` (crypto.rs): iterator-like stream of nonces,
incremented at every use. -/
structure AESGCMNonceCounter where
  nonce : List Nat
deriving DecidableEq

def AESGCMNonceCounter.new (init : List Nat) : AESGCMNonceCounter := ⟨init⟩

/-- `AESGCMNonceCounter::next` (crypto.rs): returns the current nonce and
increments the stored value via `inc_multibyte`. -/
def AESGCMNonceCounter.next (c : AESGCMNonceCounter) :
    List Nat × AESGCMNonceCounter :=
  (c.nonce, ⟨inc_multibyte c.nonce⟩)

/-- `AES256GCMInitializer` (crypto.rs): 32-byte key and 12-byte nonce. -/
structure AES256GCMInitializer where
  key : List Nat
  nonce : List Nat
deriving DecidableEq

/-- `AES256GCMInitializerPair` (crypto.rs). -/
structure AES256GCMInitializerPair where
  cts : AES256GCMInitializer
  stc : AES256GCMInitializer
deriving DecidableEq

/-- RSA public key, compared structurally as in the `rsa` crate. -/
structure RsaPublicKey where
  n : Nat
  e : Nat
deriving DecidableEq

/-- RSA private key (symbolic): determines its public half. -/
structure RsaPrivateKey where
  n : Nat
  e : Nat
  d : Nat
deriving DecidableEq

def RsaPublicKey.fromPrivate (k : RsaPrivateKey) : RsaPublicKey := ⟨k.n, k.e⟩

/-- `RsaKeyPair` (crypto.rs); the source fields `private`/`public` are
Lean keywords, renamed `priv`/`pub`. `generate` establishes
`pub = RsaPublicKey.fromPrivate priv`, carried as a hypothesis. -/
structure RsaKeyPair where
  priv : RsaPrivateKey
  pub : RsaPublicKey

/-- Symbolic RSA-PKCS1v15 ciphertext: records the encrypting public key. -/
structure RsaCiphertext (α : Type) where
  pub : RsaPublicKey
  msg : α
deriving DecidableEq

def rsaEncrypt {α : Type} (pub : RsaPublicKey) (msg : α) : RsaCiphertext α :=
  ⟨pub, msg⟩

def rsaDecrypt {α : Type} (priv : RsaPrivateKey) (ct : RsaCiphertext α) :
    Option α :=
  if ct.pub = RsaPublicKey.fromPrivate priv then some ct.msg else none

/-- `EncChannelSetupError` (crypto.rs). -/
inductive EncChannelSetupError
  | ServerPublicKeyChanged
  | Timeout
  | IoError (e : IOErr)
deriving DecidableEq

/-- `ServerPublicKeyValidator` (crypto.rs): stores at most one trusted
server public key. -/
structure ServerPublicKeyValidator where
  key : Option RsaPublicKey
deriving DecidableEq

/-- `ServerPublicKeyValidator::new` (crypto.rs): takes no argument. -/
def ServerPublicKeyValidator.new : ServerPublicKeyValidator := ⟨none⟩

/-- `ServerPublicKeyValidator::validate` (crypto.rs): trust-on-first-use.
Returns the result together with the updated validator (`&mut self`). -/
def ServerPublicKeyValidator.validate (v : ServerPublicKeyValidator)
    (key : RsaPublicKey) :
    Except EncChannelSetupError Unit × ServerPublicKeyValidator :=
  match v.key with
  | some k =>
    if key = k then (.ok (), v) else (.error .ServerPublicKeyChanged, v)
  | none => (.ok (), ⟨some key⟩)

/-- Symbolic AES-256-GCM-SIV ciphertext: records key, nonce and plaintext;
decryption succeeds exactly when key and nonce match (perfect AEAD). -/
structure AEADCiphertext where
  key : List Nat
  nonce : List Nat
  msg : List Nat
deriving DecidableEq

def aeadEncrypt (key nonce msg : List Nat) : AEADCiphertext := ⟨key, nonce, msg⟩

def aeadDecrypt (key nonce : List Nat) (ct : AEADCiphertext) :
    Option (List Nat) :=
  if ct.key = key ∧ ct.nonce = nonce then some ct.msg else none

/-- One frame on the wire, at the granularity the handshake and AEAD
channel exchange them (byte-level framing is verified separately on the
frame codec). -/
inductive Wire
  | pubkey (k : RsaPublicKey)
  | rsaCt (ct : RsaCiphertext AES256GCMInitializerPair)
  | aeadCt (ct : AEADCiphertext)
deriving DecidableEq

/-- `AES256GCMMsgSender` (crypto.rs), over an underlying codec modelled as
the list of frames written so far. -/
structure AES256GCMMsgSender where
  key : List Nat
  nonce : AESGCMNonceCounter
  sent : List Wire
deriving DecidableEq

def AES256GCMMsgSender.new (init : AES256GCMInitializer) : AES256GCMMsgSender :=
  ⟨init.key, AESGCMNonceCounter.new init.nonce, []⟩

/-- `AES256GCMMsgSender::send` (crypto.rs): draw the next nonce from the
counter, encrypt, pass the ciphertext to the underlying codec. -/
def AES256GCMMsgSender.send (s : AES256GCMMsgSender) (msg : List Nat) :
    AES256GCMMsgSender :=
  let p := s.nonce.next
  { s with
    nonce := p.2
    sent := s.sent ++ [Wire.aeadCt (aeadEncrypt s.key p.1 msg)] }

/-- `AES256GCMMsgReceiver` (crypto.rs), over an underlying codec modelled
as the queue of frames not yet consumed. -/
structure AES256GCMMsgReceiver where
  key : List Nat
  nonce : AESGCMNonceCounter
  queue : List Wire
deriving DecidableEq

def AES256GCMMsgReceiver.new (init : AES256GCMInitializer) (queue : List Wire) :
    AES256GCMMsgReceiver :=
  ⟨init.key, AESGCMNonceCounter.new init.nonce, queue⟩

/-- `AES256GCMMsgReceiver::recv` (crypto.rs): the underlying codec recv is
awaited first (`?` returns early on its error, leaving the counter
untouched); once a frame is obtained the counter advances, then the frame
is decrypted. A non-AEAD frame fails decryption. -/
def AES256GCMMsgReceiver.recv (r : AES256GCMMsgReceiver) :
    Except IOErr (List Nat) × AES256GCMMsgReceiver :=
  match r.queue with
  | [] => (.error .unexpectedEof, r)
  | w :: rest =>
    let p := r.nonce.next
    let r' : AES256GCMMsgReceiver := { r with nonce := p.2, queue := rest }
    match w with
    | Wire.aeadCt ct =>
      match aeadDecrypt r.key p.1 ct with
      | some msg => (.ok msg, r')
      | none => (.error (.other "decryption error"), r')
    | _ => (.error (.other "decryption error"), r')

/-- Send a list of messages in order through an AEAD sender. -/
def sendAllMsgs (s : AES256GCMMsgSender) (msgs : List (List Nat)) :
    AES256GCMMsgSender :=
  msgs.foldl AES256GCMMsgSender.send s

/-- Receive `n` messages in order from an AEAD receiver; `none` if any
recv fails. -/
def recvAllMsgs : AES256GCMMsgReceiver → Nat →
    Option (List (List Nat) × AES256GCMMsgReceiver)
  | r, 0 => some ([], r)
  | r, n + 1 =>
    match r.recv with
    | (.ok msg, r') =>
      match recvAllMsgs r' n with
      | some (msgs, rf) => some (msg :: msgs, rf)
      | none => none
    | (.error _, _) => none

/-- `client_setup_encrypted_channel` (crypto.rs): wait for the server's
public key frame, validate it, send the RSA-encrypted initializer pair,
and build the sender from `cts` and the receiver from `stc`. The
underlying duplex codec is modelled by the incoming frame list (frames
the server wrote) and the returned outgoing frame list. -/
def client_setup_encrypted_channel (sym_init : AES256GCMInitializerPair)
    (key_validator : ServerPublicKeyValidator) (incoming : List Wire) :
    Except EncChannelSetupError
      ((AES256GCMMsgSender × AES256GCMMsgReceiver) ×
        ServerPublicKeyValidator × List Wire) :=
  match incoming with
  | [] => .error .Timeout
  | w :: rest =>
    match w with
    | Wire.pubkey pub_key =>
      match key_validator.validate pub_key with
      | (.error e, _) => .error e
      | (.ok _, v') =>
        .ok ((AES256GCMMsgSender.new sym_init.cts,
              AES256GCMMsgReceiver.new sym_init.stc rest),
             v', [Wire.rsaCt (rsaEncrypt pub_key sym_init)])
    | _ => .error (.IoError (.invalidData "invalid public key"))

/-- `server_setup_encrypted_channel` (crypto.rs): send the public key,
wait for the client's RSA-encrypted initializer pair, decrypt with the
private key, and build the sender from `stc` and the receiver from `cts`.
First component: the frames the server writes (the public key, sent
unconditionally before receiving). -/
def server_setup_encrypted_channel (kp : RsaKeyPair) (incoming : List Wire) :
    List Wire ×
      Except EncChannelSetupError (AES256GCMMsgSender × AES256GCMMsgReceiver) :=
  ([Wire.pubkey kp.pub],
    match incoming with
    | [] => .error .Timeout
    | w :: rest =>
      match w with
      | Wire.rsaCt ct =>
        match rsaDecrypt kp.priv ct with
        | none =>
          .error (.IoError
            (.invalidData "symmetric key initializer decryption error"))
        | some sym_init =>
          .ok (AES256GCMMsgSender.new sym_init.stc,
               AES256GCMMsgReceiver.new sym_init.cts rest)
      | _ => .error (.IoError (.invalidData "invalid symmetric key initializer")))

/-- `DoublingTimer` (timer.rs). Durations are modelled in milliseconds. -/
structure DoublingTimer where
  flat : Nat
  init_dur : Nat
  cur_dur : Nat
  rem : Nat
deriving DecidableEq

/-- `DoublingTimer::new` (timer.rs). -/
def DoublingTimer.new (flat : Nat) (init_dur : Nat) : DoublingTimer :=
  ⟨flat, init_dur, init_dur, flat⟩

/-- `DoublingTimer::next` (timer.rs): returns the current duration; if
`flat != 0`, decrements `rem`, and on reaching zero restores `rem` to
`flat` and doubles the duration. -/
def DoublingTimer.next (t : DoublingTimer) : Nat × DoublingTimer :=
  let res := t.cur_dur
  if t.flat ≠ 0 then
    if t.rem - 1 = 0 then
      (res, { t with rem := t.flat, cur_dur := t.cur_dur * 2 })
    else
      (res, { t with rem := t.rem - 1 })
  else
    (res, t)

/-- `DoublingTimer::reset` (timer.rs). -/
def DoublingTimer.reset (t : DoublingTimer) : DoublingTimer :=
  { t with cur_dur := t.init_dur, rem := t.flat }

/-- State evolution of the timer under one `next` call. -/
def DoublingTimer.step (t : DoublingTimer) : DoublingTimer := t.next.2

/-- Timer state after `k` calls to `next`. -/
def DoublingTimer.run (t : DoublingTimer) (k : Nat) : DoublingTimer :=
  (DoublingTimer.step)^[k] t

/-- The list of the first `n` delays `next` returns. -/
def DoublingTimer.delays : DoublingTimer → Nat → List Nat
  | _, 0 => []
  | t, n + 1 => t.next.1 :: DoublingTimer.delays t.next.2 n

/-- Outcome of one `connect_to_cluster` attempt in `ClusterClient::run`. -/
inductive ConnectOutcome
  | failure
  | success
deriving DecidableEq

/-- One iteration of the retry loop of `ClusterClient::run` (client.rs):
on a connection error the loop draws the next backoff delay and sleeps
for it; on success it resets the timer and enters the message loop,
which does not touch the timer. Returns the updated timer and the delay
slept, if any. -/
def clusterClientIteration (t : DoublingTimer) (outcome : ConnectOutcome) :
    DoublingTimer × Option Nat :=
  match outcome with
  | .failure => (t.next.2, some t.next.1)
  | .success => (t.reset, none)

/-- Little-endian byte decomposition of `n` into `w` bytes. -/
def natToBytesLE : Nat → Nat → List Nat
  | 0, _ => []
  | w + 1, n => n % 256 :: natToBytesLE w (n / 256)

/-- `u64::to_be_bytes`. -/
def u64_to_be_bytes (n : Nat) : List Nat := (natToBytesLE 8 n).reverse

/-- `u64::from_be_bytes`. -/
def u64_from_be_bytes (l : List Nat) : Nat := beNat l

/-- `LenU64EncapsMsgSender::send` (encaps.rs), over a byte stream modelled
as the list of bytes written so far: appends the 8-byte big-endian length
prefix, then the raw bytes. Fails if the length exceeds `u64`. -/
def LenU64EncapsMsgSender_send (stream : List Nat) (msg : List Nat) :
    Except IOErr (List Nat) :=
  if msg.length < 2 ^ 64 then
    .ok (stream ++ u64_to_be_bytes msg.length ++ msg)
  else .error (.other "message too big for encapsulation")

/-- `LenU64EncapsMsgReceiver::recv` (encaps.rs): reads exactly 8 bytes as a
big-endian length, then exactly that many payload bytes; fails with an
end-of-stream error if the stream is too short. Returns the payload and
the unconsumed remainder of the stream. -/
def LenU64EncapsMsgReceiver_recv (stream : List Nat) :
    Except IOErr (List Nat × List Nat) :=
  if 8 ≤ stream.length then
    let len := u64_from_be_bytes (stream.take 8)
    let rest := stream.drop 8
    if len ≤ rest.length then .ok (rest.take len, rest.drop len)
    else .error .unexpectedEof
  else .error .unexpectedEof

/-- Modelled from the spec: the bypass-aware server identity validator.
client.rs constructs the validator as
`ServerPublicKeyValidator::new(self.config.bypass_pk_check)` and config.rs
declares `bypass_pk_check`, but the validator in crypto.rs takes no flag:
the bypass-aware implementation is missing from src. Per the spec, when
bypass is enabled `validate` accepts any candidate without storing it;
when disabled, trust-on-first-use applies as in crypto.rs. -/
structure ServerPublicKeyValidatorBypass where
  bypass : Bool
  key : Option RsaPublicKey
deriving DecidableEq

def ServerPublicKeyValidatorBypass.new (bypass : Bool) :
    ServerPublicKeyValidatorBypass :=
  ⟨bypass, none⟩

def ServerPublicKeyValidatorBypass.validate (v : ServerPublicKeyValidatorBypass)
    (key : RsaPublicKey) :
    Except EncChannelSetupError Unit × ServerPublicKeyValidatorBypass :=
  if v.bypass then (.ok (), v)
  else
    match v.key with
    | some k =>
      if key = k then (.ok (), v) else (.error .ServerPublicKeyChanged, v)
    | none => (.ok (), { v with key := some key })

/-- Ciphertext frame stream an AEAD sender with the given key produces
for a message list, starting from counter value `c`. -/
def aeadCts (key : List Nat) : List Nat → List (List Nat) → List Wire
  | _, [] => []
  | c, m :: ms =>
    Wire.aeadCt (aeadEncrypt key c m) :: aeadCts key (inc_multibyte c) ms

/-- Receiver state after `k` calls to `recv`. -/
def recvSteps (r : AES256GCMMsgReceiver) (k : Nat) : AES256GCMMsgReceiver :=
  (fun x : AES256GCMMsgReceiver => x.recv.2)^[k] r

/-! ## Arithmetic lemmas -/

theorem incLE_length (l : List Nat) : (incLE l).length = l.length := by
  induction l with
  | nil => rfl
  | cons b rest ih =>
    simp only [incLE]
    split <;> simp [ih]

theorem incLE_bytesOk {l : List Nat} (h : bytesOk l) : bytesOk (incLE l) := by
  induction l with
  | nil => exact h
  | cons b rest ih =>
    simp only [incLE]
    split
    · intro x hx
      rcases List.mem_cons.mp hx with h0 | h1
      · omega
      · exact ih (fun y hy => h y (List.mem_cons_of_mem _ hy)) x h1
    · intro x hx
      rcases List.mem_cons.mp hx with h0 | h1
      · have hb : b < 256 := h b (List.mem_cons_self _ _)
        omega
      · exact h x (List.mem_cons_of_mem _ h1)

theorem leNat_lt {l : List Nat} (h : bytesOk l) : leNat l < 256 ^ l.length := by
  induction l with
  | nil => simp [leNat]
  | cons b rest ih =>
    have hb : b < 256 := h b (List.mem_cons_self _ _)
    have hr : leNat rest < 256 ^ rest.length :=
      ih (fun y hy => h y (List.mem_cons_of_mem _ hy))
    simp only [leNat, List.length_cons, pow_succ]
    calc b + 256 * leNat rest < 256 + 256 * leNat rest := by omega
      _ = 256 * (leNat rest + 1) := by ring
      _ ≤ 256 * 256 ^ rest.length := by
          exact Nat.mul_le_mul_left 256 (by omega)
      _ = 256 ^ rest.length * 256 := by ring

theorem leNat_incLE {l : List Nat} (h : bytesOk l) :
    leNat (incLE l) = (leNat l + 1) % 256 ^ l.length := by
  induction l with
  | nil => simp [incLE, leNat]
  | cons b rest ih =>
    have hb : b < 256 := h b (List.mem_cons_self _ _)
    have hrest : bytesOk rest := fun y hy => h y (List.mem_cons_of_mem _ hy)
    simp only [incLE]
    split
    · rename_i hb255
      subst hb255
      have := ih hrest
      simp only [leNat, List.length_cons, pow_succ]
      rw [this]
      have h1 : 255 + 256 * leNat rest + 1 = 256 * (leNat rest + 1) := by ring
      rw [h1, mul_comm (256 ^ rest.length) 256, Nat.mul_mod_mul_left]
      omega
    · rename_i hbne
      have hr : leNat rest < 256 ^ rest.length := leNat_lt hrest
      have hlt : b + 256 * leNat rest + 1 < 256 ^ (rest.length + 1) := by
        have hle : leNat rest + 1 ≤ 256 ^ rest.length := by omega
        calc b + 256 * leNat rest + 1 < 256 * (leNat rest + 1) := by omega
          _ ≤ 256 * 256 ^ rest.length := Nat.mul_le_mul_left 256 hle
          _ = 256 ^ (rest.length + 1) := by ring
      simp only [leNat, List.length_cons]
      rw [Nat.mod_eq_of_lt hlt]
      omega

theorem leNat_inj {l1 l2 : List Nat} (hlen : l1.length = l2.length)
    (h1 : bytesOk l1) (h2 : bytesOk l2) (h : leNat l1 = leNat l2) : l1 = l2 := by
  induction l1 generalizing l2 with
  | nil =>
    cases l2 with
    | nil => rfl
    | cons b rest => simp at hlen
  | cons b rest ih =>
    cases l2 with
    | nil => simp at hlen
    | cons c rest2 =>
      have hb : b < 256 := h1 b (List.mem_cons_self _ _)
      have hc : c < 256 := h2 c (List.mem_cons_self _ _)
      simp only [leNat] at h
      have hbc : b = c := by omega
      subst hbc
      have hr : leNat rest = leNat rest2 := by omega
      have hlen' : rest.length = rest2.length := by simpa using hlen
      rw [ih hlen' (fun y hy => h1 y (List.mem_cons_of_mem _ hy))
        (fun y hy => h2 y (List.mem_cons_of_mem _ hy)) hr]

theorem bytesOk_reverse {l : List Nat} (h : bytesOk l) : bytesOk l.reverse :=
  fun b hb => h b (List.mem_reverse.mp hb)

theorem inc_multibyte_length (l : List Nat) :
    (inc_multibyte l).length = l.length := by
  simp [inc_multibyte, incLE_length]

theorem inc_multibyte_bytesOk {l : List Nat} (h : bytesOk l) :
    bytesOk (inc_multibyte l) := by
  intro b hb
  simp only [inc_multibyte, List.mem_reverse] at hb
  exact incLE_bytesOk (bytesOk_reverse h) b hb

theorem beNat_inc_multibyte {l : List Nat} (h : bytesOk l) :
    beNat (inc_multibyte l) = (beNat l + 1) % 256 ^ l.length := by
  simp only [beNat, inc_multibyte, List.reverse_reverse]
  rw [leNat_incLE (bytesOk_reverse h)]
  simp

theorem beNat_lt {l : List Nat} (h : bytesOk l) : beNat l < 256 ^ l.length := by
  have := leNat_lt (bytesOk_reverse h)
  simpa [beNat] using this

theorem beNat_inj {l1 l2 : List Nat} (hlen : l1.length = l2.length)
    (h1 : bytesOk l1) (h2 : bytesOk l2) (h : beNat l1 = beNat l2) : l1 = l2 := by
  have := @leNat_inj l1.reverse l2.reverse (by simpa using hlen)
    (bytesOk_reverse h1) (bytesOk_reverse h2) h
  have := congrArg List.reverse this
  simpa using this

theorem inc_multibyte_iterate_length (l : List Nat) (k : Nat) :
    ((inc_multibyte)^[k] l).length = l.length := by
  induction k generalizing l with
  | zero => rfl
  | succ n ih =>
    rw [Function.iterate_succ_apply]
    rw [ih, inc_multibyte_length]

theorem inc_multibyte_iterate_bytesOk {l : List Nat} (h : bytesOk l) (k : Nat) :
    bytesOk ((inc_multibyte)^[k] l) := by
  induction k generalizing l with
  | zero => exact h
  | succ n ih =>
    rw [Function.iterate_succ_apply]
    exact ih (inc_multibyte_bytesOk h)

theorem beNat_inc_multibyte_iterate {l : List Nat} (h : bytesOk l) (k : Nat) :
    beNat ((inc_multibyte)^[k] l) = (beNat l + k) % 256 ^ l.length := by
  induction k generalizing l with
  | zero =>
    simp only [Function.iterate_zero, id, Nat.add_zero]
    exact (Nat.mod_eq_of_lt (beNat_lt h)).symm
  | succ n ih =>
    rw [Function.iterate_succ_apply]
    rw [ih (inc_multibyte_bytesOk h), inc_multibyte_length,
      beNat_inc_multibyte h, Nat.mod_add_mod]
    congr 1
    ring

/-! ## Timer helper lemmas -/

theorem DoublingTimer.next_fst (t : DoublingTimer) : t.next.1 = t.cur_dur := by
  unfold DoublingTimer.next
  split
  · split <;> rfl
  · rfl

theorem DoublingTimer.step_flat (t : DoublingTimer) : t.step.flat = t.flat := by
  unfold DoublingTimer.step DoublingTimer.next
  split
  · split <;> rfl
  · rfl

theorem DoublingTimer.step_init (t : DoublingTimer) :
    t.step.init_dur = t.init_dur := by
  unfold DoublingTimer.step DoublingTimer.next
  split
  · split <;> rfl
  · rfl

theorem DoublingTimer.cur_dur_le_step (t : DoublingTimer) :
    t.cur_dur ≤ t.step.cur_dur := by
  unfold DoublingTimer.step DoublingTimer.next
  split
  · split
    · simp only
      omega
    · simp only
      omega
  · simp only
    omega

theorem DoublingTimer.run_succ (t : DoublingTimer) (n : Nat) :
    t.run (n + 1) = (t.run n).step := by
  unfold DoublingTimer.run
  exact Function.iterate_succ_apply' _ _ _

theorem DoublingTimer.run_flat (t : DoublingTimer) (n : Nat) :
    (t.run n).flat = t.flat := by
  induction n with
  | zero => rfl
  | succ m ih => rw [DoublingTimer.run_succ, DoublingTimer.step_flat, ih]

theorem DoublingTimer.run_init (t : DoublingTimer) (n : Nat) :
    (t.run n).init_dur = t.init_dur := by
  induction n with
  | zero => rfl
  | succ m ih => rw [DoublingTimer.run_succ, DoublingTimer.step_init, ih]

theorem DoublingTimer.run_cur_dur_mono (t : DoublingTimer) {i j : Nat}
    (h : i ≤ j) : (t.run i).cur_dur ≤ (t.run j).cur_dur := by
  induction j with
  | zero =>
    have : i = 0 := Nat.le_zero.mp h
    subst this
    exact Nat.le_refl _
  | succ m ih =>
    rcases Nat.lt_or_ge i (m + 1) with hlt | hge
    · have := ih (Nat.lt_succ_iff.mp hlt)
      calc (t.run i).cur_dur ≤ (t.run m).cur_dur := this
        _ ≤ (t.run m).step.cur_dur := DoublingTimer.cur_dur_le_step _
        _ = (t.run (m + 1)).cur_dur := by rw [DoublingTimer.run_succ]
    · have : i = m + 1 := Nat.le_antisymm h hge
      subst this
      exact Nat.le_refl _

theorem DoublingTimer.step_of_flat_zero {t : DoublingTimer} (h : t.flat = 0) :
    t.step = t := by
  unfold DoublingTimer.step DoublingTimer.next
  simp [h]

/-! ## Claim theorems -/

/-- C1: the server key validator is trust-on-first-use: with no stored key,
`validate` stores the candidate and succeeds; with a stored key, it
succeeds exactly when the candidate equals it and otherwise fails with
`ServerPublicKeyChanged`; in every case the stored key is never replaced
once set, so a failing `validate` leaves it unchanged and repeated
`validate` with the originally accepted key keeps succeeding. -/
theorem C1_validator_trust_on_first_use :
    (∀ k : RsaPublicKey,
      (ServerPublicKeyValidator.mk none).validate k =
        (.ok (), ServerPublicKeyValidator.mk (some k))) ∧
    (∀ s k : RsaPublicKey, k = s →
      (ServerPublicKeyValidator.mk (some s)).validate k =
        (.ok (), ServerPublicKeyValidator.mk (some s))) ∧
    (∀ s k : RsaPublicKey, k ≠ s →
      (ServerPublicKeyValidator.mk (some s)).validate k =
        (.error .ServerPublicKeyChanged, ServerPublicKeyValidator.mk (some s))) := by
  refine ⟨fun k => rfl, fun s k hk => ?_, fun s k hk => ?_⟩
  · simp [ServerPublicKeyValidator.validate, hk]
  · simp [ServerPublicKeyValidator.validate, hk]

/-- Witness for C1 at concrete keys. -/
theorem C1_validator_trust_on_first_use_witness :
    (ServerPublicKeyValidator.mk (some ⟨15, 3⟩)).validate ⟨15, 3⟩ =
      (.ok (), ServerPublicKeyValidator.mk (some ⟨15, 3⟩)) ∧
    (ServerPublicKeyValidator.mk (some ⟨15, 3⟩)).validate ⟨35, 5⟩ =
      (.error .ServerPublicKeyChanged,
        ServerPublicKeyValidator.mk (some ⟨15, 3⟩)) :=
  ⟨C1_validator_trust_on_first_use.2.1 ⟨15, 3⟩ ⟨15, 3⟩ rfl,
   C1_validator_trust_on_first_use.2.2 ⟨15, 3⟩ ⟨35, 5⟩ (by decide)⟩

/-- C4: `next` returns the current 12-byte value and then increments the
stored value as one big-endian unsigned integer plus one, wrapping to
zero on overflow of the full 96-bit width; and the concrete increment
examples from the spec hold. -/
theorem C4_nonce_counter_next :
    (∀ c : AESGCMNonceCounter, c.next.1 = c.nonce) ∧
    (∀ c : AESGCMNonceCounter, c.nonce.length = 12 → bytesOk c.nonce →
      beNat c.next.2.nonce = (beNat c.nonce + 1) % 2 ^ 96) ∧
    inc_multibyte [0x10] = [0x11] ∧
    inc_multibyte [0xFF] = [0x00] ∧
    inc_multibyte [0x00, 0xFF] = [0x01, 0x00] ∧
    inc_multibyte [0xFF, 0xFF] = [0x00, 0x00] := by
  refine ⟨fun c => rfl, fun c h12 hb => ?_, by decide, by decide, by decide,
    by decide⟩
  show beNat (inc_multibyte c.nonce) = _
  rw [beNat_inc_multibyte hb, h12]
  norm_num

/-- Witness for C4 at a concrete counter. -/
theorem C4_nonce_counter_next_witness :
    beNat (AESGCMNonceCounter.mk (List.replicate 12 255)).next.2.nonce =
      (beNat (List.replicate 12 255) + 1) % 2 ^ 96 :=
  C4_nonce_counter_next.2.1 (AESGCMNonceCounter.mk (List.replicate 12 255))
    (by decide) (by decide)

/-- C5: on 12-byte values the increment has full period 2^96: applying it
2^96 times returns every seed to itself, and no strictly smaller positive
number of applications does. -/
theorem C5_inc_multibyte_full_period (seed : List Nat)
    (h12 : seed.length = 12) (hb : bytesOk seed) :
    (inc_multibyte)^[2 ^ 96] seed = seed ∧
    ∀ k, 0 < k → k < 2 ^ 96 → (inc_multibyte)^[k] seed ≠ seed := by
  have hpow : (256 : Nat) ^ 12 = 2 ^ 96 := by norm_num
  have hv : beNat seed < 2 ^ 96 := by
    have := beNat_lt hb
    rw [h12, hpow] at this
    exact this
  constructor
  · apply beNat_inj
    · rw [inc_multibyte_iterate_length]
    · exact inc_multibyte_iterate_bytesOk hb _
    · exact hb
    · rw [beNat_inc_multibyte_iterate hb, h12, hpow, Nat.add_mod_right,
        Nat.mod_eq_of_lt hv]
  · intro k hk0 hkM heq
    have hval := beNat_inc_multibyte_iterate hb k
    rw [heq, h12, hpow] at hval
    have hdm := Nat.div_add_mod (beNat seed + k) (2 ^ 96)
    rw [← hval] at hdm
    have hk : k = 2 ^ 96 * ((beNat seed + k) / 2 ^ 96) := by omega
    rcases Nat.eq_zero_or_pos ((beNat seed + k) / 2 ^ 96) with hq | hq
    · rw [hq, Nat.mul_zero] at hk
      omega
    · have : 2 ^ 96 ≤ 2 ^ 96 * ((beNat seed + k) / 2 ^ 96) :=
        Nat.le_mul_of_pos_right _ hq
      omega

/-- Witness for C5 at the all-zero seed. -/
theorem C5_inc_multibyte_full_period_witness :
    (inc_multibyte)^[2 ^ 96] (List.replicate 12 0) = List.replicate 12 0 ∧
    ∀ k, 0 < k → k < 2 ^ 96 →
      (inc_multibyte)^[k] (List.replicate 12 0) ≠ List.replicate 12 0 :=
  C5_inc_multibyte_full_period (List.replicate 12 0) (by decide) (by decide)

/-- C7: the backoff timer built with flat count 2 and initial delay 1000ms
yields 1000, 1000, 2000, 2000, 4000, 4000 on successive `next` calls;
`reset` restores the sequence to its start from any point; and a timer
built with flat count 0 yields its initial delay on every `next` call
forever. -/
theorem C7_doubling_timer_schedule :
    (DoublingTimer.new 2 1000).delays 6 = [1000, 1000, 2000, 2000, 4000, 4000] ∧
    (∀ f d n, ((DoublingTimer.new f d).run n).reset = DoublingTimer.new f d) ∧
    (∀ d n, ((DoublingTimer.new 0 d).run n).next.1 = d) := by
  refine ⟨by decide, fun f d n => ?_, fun d n => ?_⟩
  · have h1 : ((DoublingTimer.new f d).run n).flat = f :=
      DoublingTimer.run_flat (DoublingTimer.new f d) n
    have h2 : ((DoublingTimer.new f d).run n).init_dur = d :=
      DoublingTimer.run_init (DoublingTimer.new f d) n
    have hres : ∀ x : DoublingTimer,
        x.reset = DoublingTimer.mk x.flat x.init_dur x.init_dur x.flat :=
      fun x => rfl
    rw [hres, h1, h2]
    rfl
  · have hfix : (DoublingTimer.new 0 d).run n = DoublingTimer.new 0 d := by
      induction n with
      | zero => rfl
      | succ m ih =>
        rw [DoublingTimer.run_succ, ih, DoublingTimer.step_of_flat_zero rfl]
    rw [hfix, DoublingTimer.next_fst]
    rfl

/-- C8: without an intervening `reset`, the delays returned by successive
`next` calls are non-decreasing from any timer state; and the connection
loop resets the timer exactly on a successful connection: the success arm
resets it (restoring the initial delay) and the failure arm only draws
the next (never smaller) delay. -/
theorem C8_backoff_monotone_and_reset_on_success :
    (∀ (t : DoublingTimer) (i j : Nat), i ≤ j →
      (t.run i).next.1 ≤ (t.run j).next.1) ∧
    (∀ t : DoublingTimer,
      clusterClientIteration t .success = (t.reset, none) ∧
      (clusterClientIteration t .success).1.cur_dur = t.init_dur) ∧
    (∀ t : DoublingTimer,
      clusterClientIteration t .failure = (t.next.2, some t.next.1) ∧
      t.cur_dur ≤ (clusterClientIteration t .failure).1.cur_dur) := by
  refine ⟨fun t i j h => ?_, fun t => ⟨rfl, rfl⟩, fun t => ⟨rfl, ?_⟩⟩
  · rw [DoublingTimer.next_fst, DoublingTimer.next_fst]
    exact DoublingTimer.run_cur_dur_mono t h
  · exact DoublingTimer.cur_dur_le_step t

/-- Witness for C8 at a concrete timer and indices. -/
theorem C8_backoff_monotone_and_reset_on_success_witness :
    ((DoublingTimer.new 2 1000).run 1).next.1 ≤
      ((DoublingTimer.new 2 1000).run 4).next.1 :=
  C8_backoff_monotone_and_reset_on_success.1 (DoublingTimer.new 2 1000) 1 4
    (by decide)

/-- C9 (modelled from the spec, see `ServerPublicKeyValidatorBypass`): with
bypass enabled, validation accepts any candidate key without storing it;
with bypass disabled, validation behaves exactly as the trust-on-first-use
validator of crypto.rs over the same stored key. -/
theorem C9_bypass_identity_check :
    (∀ (v : ServerPublicKeyValidatorBypass) (k : RsaPublicKey),
      v.bypass = true → v.validate k = (.ok (), v)) ∧
    (∀ (v : ServerPublicKeyValidatorBypass) (k : RsaPublicKey),
      v.bypass = false →
        (v.validate k).1 = ((ServerPublicKeyValidator.mk v.key).validate k).1 ∧
        (v.validate k).2.key =
          ((ServerPublicKeyValidator.mk v.key).validate k).2.key ∧
        (v.validate k).2.bypass = false) := by
  constructor
  · intro v k hb
    simp [ServerPublicKeyValidatorBypass.validate, hb]
  · intro v k hb
    obtain ⟨b, vk⟩ := v
    have hb' : b = false := hb
    subst hb'
    cases vk with
    | none =>
      simp [ServerPublicKeyValidatorBypass.validate,
        ServerPublicKeyValidator.validate]
    | some s =>
      by_cases he : k = s
      · simp [ServerPublicKeyValidatorBypass.validate,
          ServerPublicKeyValidator.validate, he]
      · simp [ServerPublicKeyValidatorBypass.validate,
          ServerPublicKeyValidator.validate, he]

/-- Witness for C9 at concrete validators and keys. -/
theorem C9_bypass_identity_check_witness :
    (ServerPublicKeyValidatorBypass.mk true (some ⟨15, 3⟩)).validate ⟨35, 5⟩ =
      (.ok (), ServerPublicKeyValidatorBypass.mk true (some ⟨15, 3⟩)) ∧
    ((ServerPublicKeyValidatorBypass.mk false none).validate ⟨35, 5⟩).2.key =
      ((ServerPublicKeyValidator.mk none).validate ⟨35, 5⟩).2.key :=
  ⟨C9_bypass_identity_check.1 _ _ rfl,
   (C9_bypass_identity_check.2 (ServerPublicKeyValidatorBypass.mk false none)
     ⟨35, 5⟩ rfl).2.1⟩

/-! ## Frame codec lemmas -/

theorem natToBytesLE_length (w : Nat) : ∀ n, (natToBytesLE w n).length = w := by
  induction w with
  | zero => intro n; rfl
  | succ v ih => intro n; simp [natToBytesLE, ih]

theorem mod_pow_succ_split (n w : Nat) :
    n % 256 ^ (w + 1) = 256 * (n / 256 % 256 ^ w) + n % 256 := by
  have hM : 0 < (256 : Nat) ^ w := Nat.pos_pow_of_pos _ (by norm_num)
  have hx := Nat.div_add_mod (n / 256) (256 ^ w)
  have hn := Nat.div_add_mod n 256
  have hr : n % 256 < 256 := Nat.mod_lt _ (by norm_num)
  have hxm : n / 256 % 256 ^ w < 256 ^ w := Nat.mod_lt _ hM
  have key : n = 256 ^ (w + 1) * (n / 256 / 256 ^ w) +
      (256 * (n / 256 % 256 ^ w) + n % 256) := by
    conv_lhs => rw [← hn, ← hx]
    ring
  have hlt : 256 * (n / 256 % 256 ^ w) + n % 256 < 256 ^ (w + 1) := by
    have : 256 * (n / 256 % 256 ^ w) + n % 256 < 256 * (n / 256 % 256 ^ w + 1) := by
      omega
    calc 256 * (n / 256 % 256 ^ w) + n % 256
        < 256 * (n / 256 % 256 ^ w + 1) := this
      _ ≤ 256 * 256 ^ w := Nat.mul_le_mul_left 256 (by omega)
      _ = 256 ^ (w + 1) := (pow_succ' 256 w).symm
  conv_lhs => rw [key]
  rw [Nat.mul_add_mod, Nat.mod_eq_of_lt hlt]

theorem leNat_natToBytesLE (w : Nat) :
    ∀ n, leNat (natToBytesLE w n) = n % 256 ^ w := by
  induction w with
  | zero =>
    intro n
    simp [natToBytesLE, leNat, Nat.mod_one]
  | succ v ih =>
    intro n
    simp only [natToBytesLE, leNat, ih]
    rw [mod_pow_succ_split]
    omega

theorem u64_to_be_bytes_length (n : Nat) : (u64_to_be_bytes n).length = 8 := by
  simp [u64_to_be_bytes, natToBytesLE_length]

theorem u64_roundtrip {n : Nat} (h : n < 2 ^ 64) :
    u64_from_be_bytes (u64_to_be_bytes n) = n := by
  unfold u64_from_be_bytes u64_to_be_bytes beNat
  rw [List.reverse_reverse, leNat_natToBytesLE]
  have h8 : (256 : Nat) ^ 8 = 2 ^ 64 := by norm_num
  rw [h8]
  exact Nat.mod_eq_of_lt h

/-- C6: for every byte sequence whose length fits the 64-bit length field,
`send` writes the 8-byte big-endian length prefix followed by the raw
bytes, and `recv` on the paired end reads exactly that frame back,
yielding the original sequence with the rest of the stream untouched. -/
theorem C6_frame_codec_roundtrip (msg rest : List Nat)
    (h : msg.length < 2 ^ 64) :
    LenU64EncapsMsgSender_send [] msg =
      .ok (u64_to_be_bytes msg.length ++ msg) ∧
    LenU64EncapsMsgReceiver_recv (u64_to_be_bytes msg.length ++ msg ++ rest) =
      .ok (msg, rest) := by
  constructor
  · unfold LenU64EncapsMsgSender_send
    rw [if_pos h]
    simp
  · have hlen8 : (u64_to_be_bytes msg.length).length = 8 :=
      u64_to_be_bytes_length _
    have hassoc : u64_to_be_bytes msg.length ++ msg ++ rest =
        u64_to_be_bytes msg.length ++ (msg ++ rest) := List.append_assoc _ _ _
    have htake : (u64_to_be_bytes msg.length ++ (msg ++ rest)).take 8 =
        u64_to_be_bytes msg.length := by
      rw [← hlen8]
      exact List.take_left _ _
    have hdrop : (u64_to_be_bytes msg.length ++ (msg ++ rest)).drop 8 =
        msg ++ rest := by
      rw [← hlen8]
      exact List.drop_left _ _
    have hge : 8 ≤ (u64_to_be_bytes msg.length ++ (msg ++ rest)).length := by
      simp [hlen8]
    have hval : u64_from_be_bytes (u64_to_be_bytes msg.length) = msg.length :=
      u64_roundtrip h
    have htake2 : (msg ++ rest).take msg.length = msg := List.take_left _ _
    have hdrop2 : (msg ++ rest).drop msg.length = rest := List.drop_left _ _
    rw [hassoc]
    simp only [LenU64EncapsMsgReceiver_recv, htake, hdrop, hval, if_pos hge]
    rw [if_pos (by simp)]
    rw [htake2, hdrop2]

/-- Witness for C6 at a concrete message and remainder. -/
theorem C6_frame_codec_roundtrip_witness :
    LenU64EncapsMsgSender_send [] [10, 20, 30] =
      .ok (u64_to_be_bytes 3 ++ [10, 20, 30]) ∧
    LenU64EncapsMsgReceiver_recv (u64_to_be_bytes 3 ++ [10, 20, 30] ++ [99]) =
      .ok ([10, 20, 30], [99]) :=
  C6_frame_codec_roundtrip [10, 20, 30] [99] (by decide)

/-! ## AEAD channel lemmas -/

theorem inc_multibyte_iterate_period {seed : List Nat}
    (h12 : seed.length = 12) (hb : bytesOk seed) :
    (inc_multibyte)^[2 ^ 96] seed = seed := by
  have hpow : (256 : Nat) ^ 12 = 2 ^ 96 := by norm_num
  have hv : beNat seed < 2 ^ 96 := by
    have := beNat_lt hb
    rw [h12, hpow] at this
    exact this
  apply beNat_inj
  · rw [inc_multibyte_iterate_length]
  · exact inc_multibyte_iterate_bytesOk hb _
  · exact hb
  · rw [beNat_inc_multibyte_iterate hb, h12, hpow, Nat.add_mod_right,
      Nat.mod_eq_of_lt hv]

theorem inc_multibyte_iterate_inj {seed : List Nat}
    (h12 : seed.length = 12) (hb : bytesOk seed) {i j : Nat}
    (hi : i < 2 ^ 96) (hj : j < 2 ^ 96)
    (h : (inc_multibyte)^[i] seed = (inc_multibyte)^[j] seed) : i = j := by
  have hpow : (256 : Nat) ^ 12 = 2 ^ 96 := by norm_num
  have hvi := beNat_inc_multibyte_iterate hb i
  have hvj := beNat_inc_multibyte_iterate hb j
  rw [h12, hpow] at hvi hvj
  have hval : (beNat seed + i) % 2 ^ 96 = (beNat seed + j) % 2 ^ 96 := by
    rw [← hvi, ← hvj, h]
  have hcancel : i % 2 ^ 96 = j % 2 ^ 96 :=
    Nat.ModEq.add_left_cancel' (beNat seed) hval
  rw [Nat.mod_eq_of_lt hi, Nat.mod_eq_of_lt hj] at hcancel
  exact hcancel

theorem sendAllMsgs_spec (msgs : List (List Nat)) :
    ∀ s : AES256GCMMsgSender,
      sendAllMsgs s msgs =
        ⟨s.key, ⟨(inc_multibyte)^[msgs.length] s.nonce.nonce⟩,
          s.sent ++ aeadCts s.key s.nonce.nonce msgs⟩ := by
  induction msgs with
  | nil =>
    intro s
    simp [sendAllMsgs, aeadCts]
  | cons m ms ih =>
    intro s
    have h1 : sendAllMsgs s (m :: ms) = sendAllMsgs (s.send m) ms := rfl
    rw [h1, ih]
    simp [AES256GCMMsgSender.send, aeadCts, aeadEncrypt,
      AESGCMNonceCounter.next, Function.iterate_succ_apply,
      List.append_assoc]

theorem recvAllMsgs_lockstep (msgs : List (List Nat)) :
    ∀ (key c : List Nat) (tail : List Wire),
      recvAllMsgs ⟨key, ⟨c⟩, aeadCts key c msgs ++ tail⟩ msgs.length =
        some (msgs, ⟨key, ⟨(inc_multibyte)^[msgs.length] c⟩, tail⟩) := by
  induction msgs with
  | nil =>
    intro key c tail
    simp [recvAllMsgs, aeadCts]
  | cons m ms ih =>
    intro key c tail
    have hrecv :
        (AES256GCMMsgReceiver.mk key ⟨c⟩
            (aeadCts key c (m :: ms) ++ tail)).recv =
          (.ok m, ⟨key, ⟨inc_multibyte c⟩,
            aeadCts key (inc_multibyte c) ms ++ tail⟩) := by
      simp [AES256GCMMsgReceiver.recv, aeadCts, aeadEncrypt, aeadDecrypt,
        AESGCMNonceCounter.next]
    show recvAllMsgs _ (ms.length + 1) = _
    simp only [recvAllMsgs, hrecv, ih]
    simp [Function.iterate_succ_apply]

theorem recv_step_frame (key n : List Nat) (w : Wire) (rest : List Wire) :
    (AES256GCMMsgReceiver.mk key ⟨n⟩ (w :: rest)).recv.2 =
      AES256GCMMsgReceiver.mk key ⟨inc_multibyte n⟩ rest := by
  cases w with
  | aeadCt ct =>
    simp only [AES256GCMMsgReceiver.recv, AESGCMNonceCounter.next]
    cases hd : aeadDecrypt key n ct <;> simp [hd]
  | pubkey k => rfl
  | rsaCt ct => rfl

theorem recvSteps_spec (k : Nat) :
    ∀ r : AES256GCMMsgReceiver, k ≤ r.queue.length →
      recvSteps r k =
        ⟨r.key, ⟨(inc_multibyte)^[k] r.nonce.nonce⟩, r.queue.drop k⟩ := by
  induction k with
  | zero =>
    intro r _
    simp [recvSteps]
  | succ m ih =>
    intro r hle
    obtain ⟨key, ⟨n⟩, q⟩ := r
    cases q with
    | nil => simp at hle
    | cons w rest =>
      have hstep : recvSteps ⟨key, ⟨n⟩, w :: rest⟩ (m + 1) =
          recvSteps (AES256GCMMsgReceiver.mk key ⟨n⟩ (w :: rest)).recv.2 m := by
        unfold recvSteps
        exact Function.iterate_succ_apply _ _ _
      rw [hstep, recv_step_frame]
      have hm : m ≤ rest.length := by
        simp at hle
        omega
      rw [ih _ hm]
      simp [Function.iterate_succ_apply]

/-- C2 (amended): the nonce counter is the sole source of nonces for
`send` — each send encrypts under exactly the counter's current value and
advances the counter by one, so after `k` sends the counter holds the
k-th increment of its seed — and within any window of 2^96 consecutive
sends all nonces drawn are pairwise distinct. (The frozen claim's
unbounded "never repeats a value it has already yielded" fails: the
counter wraps back to its seed after exactly 2^96 sends, see the
counterexample.) -/
theorem C2_sender_nonce_discipline (s : AES256GCMMsgSender)
    (h12 : s.nonce.nonce.length = 12) (hb : bytesOk s.nonce.nonce) :
    (∀ m, s.send m =
      ⟨s.key, ⟨inc_multibyte s.nonce.nonce⟩,
        s.sent ++ [Wire.aeadCt (aeadEncrypt s.key s.nonce.nonce m)]⟩) ∧
    (∀ msgs : List (List Nat),
      (sendAllMsgs s msgs).nonce.nonce =
        (inc_multibyte)^[msgs.length] s.nonce.nonce) ∧
    (∀ i j, i < j → j < 2 ^ 96 →
      (inc_multibyte)^[i] s.nonce.nonce ≠
        (inc_multibyte)^[j] s.nonce.nonce) := by
  refine ⟨fun m => rfl, fun msgs => ?_, fun i j hij hj => ?_⟩
  · rw [sendAllMsgs_spec]
  · intro heq
    have := inc_multibyte_iterate_inj h12 hb (lt_trans hij hj) hj heq
    omega

/-- Witness for C2's amended theorem at a concrete sender. -/
theorem C2_sender_nonce_discipline_witness :
    AES256GCMMsgSender.send ⟨[7], ⟨List.replicate 12 0⟩, []⟩ [5] =
      ⟨[7], ⟨inc_multibyte (List.replicate 12 0)⟩,
        [Wire.aeadCt (aeadEncrypt [7] (List.replicate 12 0) [5])]⟩ :=
  (C2_sender_nonce_discipline ⟨[7], ⟨List.replicate 12 0⟩, []⟩ (by decide)
    (by decide)).1 [5]

/-- C2 counterexample: starting from the all-zero seed, after 2^96 sends
the sender's counter has returned exactly to its initial value, so the
next send reuses the very first nonce — the counter does repeat values it
has already yielded within one sender lifetime. -/
theorem C2_counterexample_nonce_wraps :
    (sendAllMsgs
        (AES256GCMMsgSender.new ⟨List.replicate 32 0, List.replicate 12 0⟩)
        (List.replicate (2 ^ 96) [])).nonce.nonce =
      (AES256GCMMsgSender.new
        ⟨List.replicate 32 0, List.replicate 12 0⟩).nonce.nonce := by
  simp only [sendAllMsgs_spec, List.length_replicate]
  exact inc_multibyte_iterate_period (by decide) (by decide)

/-- C10 (amended): each `recv` that obtains a frame from the underlying
codec advances the nonce counter by exactly one, regardless of whether
decryption succeeds (the error is returned with the counter already
advanced), so within any window of 2^96 frame-obtaining receive attempts
no nonce value is reused; if the underlying codec recv fails, the error
propagates and the counter is not advanced. (The frozen claim's
unbounded "no nonce value is ever reused" fails: the counter wraps after
2^96 received frames, see the counterexample.) -/
theorem C10_receiver_nonce_advance (r : AES256GCMMsgReceiver) :
    (r.queue = [] → r.recv = (.error .unexpectedEof, r)) ∧
    (∀ w rest, r.queue = w :: rest →
      r.recv.2 = ⟨r.key, ⟨inc_multibyte r.nonce.nonce⟩, rest⟩) ∧
    (r.nonce.nonce.length = 12 → bytesOk r.nonce.nonce →
      ∀ i j, i < j → j < 2 ^ 96 → j ≤ r.queue.length →
        (recvSteps r i).nonce.nonce ≠ (recvSteps r j).nonce.nonce) := by
  obtain ⟨key, ⟨n⟩, q⟩ := r
  refine ⟨fun hq => ?_, fun w rest hq => ?_,
    fun h12 hb i j hij hj hqlen => ?_⟩
  · subst hq
    rfl
  · subst hq
    exact recv_step_frame key n w rest
  · intro heq
    have h1 := recvSteps_spec i (AES256GCMMsgReceiver.mk key ⟨n⟩ q)
      (le_of_lt (lt_of_lt_of_le hij hqlen))
    have h2 := recvSteps_spec j (AES256GCMMsgReceiver.mk key ⟨n⟩ q) hqlen
    rw [h1, h2] at heq
    dsimp only at heq
    have := inc_multibyte_iterate_inj h12 hb (lt_trans hij hj) hj heq
    omega

/-- Witness for C10's amended theorem at a concrete receiver. -/
theorem C10_receiver_nonce_advance_witness :
    (AES256GCMMsgReceiver.mk [7] ⟨List.replicate 12 0⟩
        [Wire.pubkey ⟨3, 5⟩]).recv.2 =
      ⟨[7], ⟨inc_multibyte (List.replicate 12 0)⟩, []⟩ :=
  (C10_receiver_nonce_advance
    (AES256GCMMsgReceiver.mk [7] ⟨List.replicate 12 0⟩
      [Wire.pubkey ⟨3, 5⟩])).2.1 (Wire.pubkey ⟨3, 5⟩) [] rfl

/-- C10 counterexample: with 2^96 frames queued and the all-zero seed,
after 2^96 frame-obtaining receive attempts the receiver's counter has
returned exactly to its initial value, so the next decryption attempt
reuses the very first nonce. -/
theorem C10_counterexample_nonce_wraps :
    (recvSteps
        (AES256GCMMsgReceiver.mk (List.replicate 32 0) ⟨List.replicate 12 0⟩
          (List.replicate (2 ^ 96) (Wire.aeadCt ⟨[], [], []⟩)))
        (2 ^ 96)).nonce.nonce =
      (AES256GCMMsgReceiver.mk (List.replicate 32 0) ⟨List.replicate 12 0⟩
          (List.replicate (2 ^ 96) (Wire.aeadCt ⟨[], [], []⟩))).nonce.nonce := by
  have hle : 2 ^ 96 ≤
      (AES256GCMMsgReceiver.mk (List.replicate 32 0) ⟨List.replicate 12 0⟩
        (List.replicate (2 ^ 96) (Wire.aeadCt ⟨[], [], []⟩))).queue.length :=
    (List.length_replicate _ _).symm.le
  simp only [recvSteps_spec (2 ^ 96)
    (AES256GCMMsgReceiver.mk (List.replicate 32 0) ⟨List.replicate 12 0⟩
      (List.replicate (2 ^ 96) (Wire.aeadCt ⟨[], [], []⟩))) hle]
  exact inc_multibyte_iterate_period (by decide) (by decide)

/-- C3: running the server and client handshake procedures over a
connected pair of codecs with a key pair whose public half matches the
private half (as `RsaKeyPair::generate` produces) succeeds and builds the
client's sender from `cts` and receiver from `stc`, and the server's
sender from `stc` and receiver from `cts`; and for every message list, the
messages sent on one side's sender are received byte-identical and in
order on the other side's receiver, in both directions. -/
theorem C3_handshake_roundtrip (kp : RsaKeyPair)
    (sym_init : AES256GCMInitializerPair)
    (msgsCtoS msgsStoC : List (List Nat))
    (hkp : kp.pub = RsaPublicKey.fromPrivate kp.priv) :
    ∃ (cs ss : AES256GCMMsgSender) (cr sr : AES256GCMMsgReceiver)
      (v' : ServerPublicKeyValidator) (out : List Wire),
      client_setup_encrypted_channel sym_init ServerPublicKeyValidator.new
          (server_setup_encrypted_channel kp []).1 =
        .ok ((cs, cr), v', out) ∧
      (server_setup_encrypted_channel kp out).2 = .ok (ss, sr) ∧
      cs.key = sym_init.cts.key ∧ cs.nonce.nonce = sym_init.cts.nonce ∧
      cr.key = sym_init.stc.key ∧ cr.nonce.nonce = sym_init.stc.nonce ∧
      ss.key = sym_init.stc.key ∧ ss.nonce.nonce = sym_init.stc.nonce ∧
      sr.key = sym_init.cts.key ∧ sr.nonce.nonce = sym_init.cts.nonce ∧
      (recvAllMsgs ⟨sr.key, sr.nonce, sr.queue ++ (sendAllMsgs cs msgsCtoS).sent⟩
          msgsCtoS.length).map Prod.fst = some msgsCtoS ∧
      (recvAllMsgs ⟨cr.key, cr.nonce, cr.queue ++ (sendAllMsgs ss msgsStoC).sent⟩
          msgsStoC.length).map Prod.fst = some msgsStoC := by
  refine ⟨AES256GCMMsgSender.new sym_init.cts,
    AES256GCMMsgSender.new sym_init.stc,
    AES256GCMMsgReceiver.new sym_init.stc [],
    AES256GCMMsgReceiver.new sym_init.cts [],
    ⟨some kp.pub⟩, [Wire.rsaCt (rsaEncrypt kp.pub sym_init)],
    rfl, ?_, rfl, rfl, rfl, rfl, rfl, rfl, rfl, rfl, ?_, ?_⟩
  · simp [server_setup_encrypted_channel, rsaDecrypt, rsaEncrypt, hkp]
  · simp only [sendAllMsgs_spec, AES256GCMMsgSender.new,
      AES256GCMMsgReceiver.new, AESGCMNonceCounter.new, List.nil_append]
    rw [← List.append_nil
      (aeadCts sym_init.cts.key sym_init.cts.nonce msgsCtoS)]
    rw [recvAllMsgs_lockstep]
    simp
  · simp only [sendAllMsgs_spec, AES256GCMMsgSender.new,
      AES256GCMMsgReceiver.new, AESGCMNonceCounter.new, List.nil_append]
    rw [← List.append_nil
      (aeadCts sym_init.stc.key sym_init.stc.nonce msgsStoC)]
    rw [recvAllMsgs_lockstep]
    simp

/-- Witness for C3 at a concrete key pair, initializer pair and message
lists. -/
theorem C3_handshake_roundtrip_witness :
    ∃ (cs ss : AES256GCMMsgSender) (cr sr : AES256GCMMsgReceiver)
      (v' : ServerPublicKeyValidator) (out : List Wire),
      client_setup_encrypted_channel ⟨⟨[1], [2]⟩, ⟨[3], [4]⟩⟩
          ServerPublicKeyValidator.new
          (server_setup_encrypted_channel ⟨⟨77, 5, 29⟩, ⟨77, 5⟩⟩ []).1 =
        .ok ((cs, cr), v', out) ∧
      (server_setup_encrypted_channel ⟨⟨77, 5, 29⟩, ⟨77, 5⟩⟩ out).2 =
        .ok (ss, sr) ∧
      cs.key = [1] ∧ cs.nonce.nonce = [2] ∧
      cr.key = [3] ∧ cr.nonce.nonce = [4] ∧
      ss.key = [3] ∧ ss.nonce.nonce = [4] ∧
      sr.key = [1] ∧ sr.nonce.nonce = [2] ∧
      (recvAllMsgs ⟨sr.key, sr.nonce, sr.queue ++ (sendAllMsgs cs [[9]]).sent⟩
          [[9]].length).map Prod.fst = some [[9]] ∧
      (recvAllMsgs ⟨cr.key, cr.nonce, cr.queue ++ (sendAllMsgs ss [[8]]).sent⟩
          [[8]].length).map Prod.fst = some [[8]] :=
  C3_handshake_roundtrip ⟨⟨77, 5, 29⟩, ⟨77, 5⟩⟩ ⟨⟨[1], [2]⟩, ⟨[3], [4]⟩⟩
    [[9]] [[8]] rfl
